import Mathlib

/-!
Verification of the group-state persistence layer of an MLS-style
messaging core (src/group_state.go).

The file shallowly embeds the serialization code: byte strings are
lists of bytes (Fin 256), builders are Option-valued encoders (the Go
cryptobyte.Builder error state becomes none), and cryptobyte.String
readers become parsers of type Bytes → Option (α × Bytes) consuming
from the front.

The codec primitives (writeVarint, writeOpaqueVec, writeVector,
writeOptional and their readers) and the sub-structure codecs
(groupContext, ratchetTree, proposal) are not part of the visible
source; they are modelled from the spec (length-prefixed vectors with
minimal variable-length integer prefixes, one-byte presence flags,
fixed-width integers, trailing-byte rejection). groupState.marshal,
groupState.unmarshal, pendingProposal.marshal, pendingProposal.unmarshal,
Group.Marshal and UnmarshalGroupState follow the source line by line.
-/

namespace MLS

/-- A byte. -/
abbrev Byte := Fin 256

/-- A byte string. -/
abbrev Bytes := List Byte

/-- Truncate a natural number to one byte. -/
def mkByte (n : Nat) : Byte := ⟨n % 256, Nat.mod_lt _ (by omega)⟩

/-- Fixed-width big-endian 8-bit write (cryptobyte AddUint8). -/
def writeUint8 (n : Nat) : Bytes := [mkByte n]

/-- Fixed-width big-endian 16-bit write (cryptobyte AddUint16). -/
def writeUint16 (n : Nat) : Bytes := [mkByte (n / 2^8), mkByte n]

/-- Fixed-width big-endian 32-bit write (cryptobyte AddUint32). -/
def writeUint32 (n : Nat) : Bytes :=
  [mkByte (n / 2^24), mkByte (n / 2^16), mkByte (n / 2^8), mkByte n]

/-- Fixed-width big-endian 64-bit write (cryptobyte AddUint64). -/
def writeUint64 (n : Nat) : Bytes :=
  [mkByte (n / 2^56), mkByte (n / 2^48), mkByte (n / 2^40), mkByte (n / 2^32),
   mkByte (n / 2^24), mkByte (n / 2^16), mkByte (n / 2^8), mkByte n]

/-- Read a fixed-width 8-bit integer. -/
def readUint8 : Bytes → Option (Nat × Bytes)
  | b :: r => some (b.val, r)
  | [] => none

/-- Read a fixed-width big-endian 16-bit integer. -/
def readUint16 : Bytes → Option (Nat × Bytes)
  | b0 :: b1 :: r => some (b0.val * 2^8 + b1.val, r)
  | _ => none

/-- Read a fixed-width big-endian 32-bit integer (cryptobyte ReadUint32). -/
def readUint32 : Bytes → Option (Nat × Bytes)
  | b0 :: b1 :: b2 :: b3 :: r =>
    some (b0.val * 2^24 + b1.val * 2^16 + b2.val * 2^8 + b3.val, r)
  | _ => none

/-- Read a fixed-width big-endian 64-bit integer. -/
def readUint64 : Bytes → Option (Nat × Bytes)
  | b0 :: b1 :: b2 :: b3 :: b4 :: b5 :: b6 :: b7 :: r =>
    some (b0.val * 2^56 + b1.val * 2^48 + b2.val * 2^40 + b3.val * 2^32 +
          b4.val * 2^24 + b5.val * 2^16 + b6.val * 2^8 + b7.val, r)
  | _ => none

/-- Modelled from the spec: the variable-length length prefix of the
serialization layer (missing codec source). A length below 2^6 takes one
byte, below 2^14 two bytes with top bits 01, below 2^30 four bytes with
top bits 10; larger values put the builder in its error state. -/
def writeVarint (n : Nat) : Option Bytes :=
  if n < 2^6 then some [mkByte n]
  else if n < 2^14 then some [mkByte (2^6 + n / 2^8), mkByte n]
  else if n < 2^30 then
    some [mkByte (2^7 + n / 2^24), mkByte (n / 2^16), mkByte (n / 2^8), mkByte n]
  else none

/-- Modelled from the spec: read a variable-length length prefix.
Rejects the reserved top-bits-11 form (an unknown/invalid length
prefix) and any non-minimal encoding. -/
def readVarint : Bytes → Option (Nat × Bytes)
  | [] => none
  | b :: r =>
    if b.val < 2^6 then some (b.val, r)
    else if b.val < 2^7 then
      match r with
      | b1 :: r1 =>
        let v := (b.val - 2^6) * 2^8 + b1.val
        if v < 2^6 then none else some (v, r1)
      | [] => none
    else if b.val < 2^6 + 2^7 then
      match r with
      | b1 :: b2 :: b3 :: r3 =>
        let v := (b.val - 2^7) * 2^24 + b1.val * 2^16 + b2.val * 2^8 + b3.val
        if v < 2^14 then none else some (v, r3)
      | _ => none
    else none

/-- Modelled from the spec: a byte string is length-prefixed (an opaque
vector). -/
def writeOpaqueVec (v : Bytes) : Option Bytes :=
  (writeVarint v.length).map (· ++ v)

/-- Modelled from the spec: read a length-prefixed byte string. -/
def readOpaqueVec (s : Bytes) : Option (Bytes × Bytes) := do
  let (n, s1) ← readVarint s
  if n ≤ s1.length then some (s1.take n, s1.drop n) else none

/-- Modelled from the spec: optional values are preceded by a one-byte
presence flag. -/
def writeOptional (present : Bool) : Bytes :=
  [if present then (1 : Byte) else (0 : Byte)]

/-- Modelled from the spec: read a one-byte presence flag; any byte
other than 0 or 1 is malformed. -/
def readOptional : Bytes → Option (Bool × Bytes)
  | b :: r =>
    if b.val = 0 then some (false, r)
    else if b.val = 1 then some (true, r)
    else none
  | [] => none

/-- Encode every element of a list and concatenate the encodings in
the existing list order. -/
def encodeAll {α : Type} (enc : α → Option Bytes) : List α → Option Bytes
  | [] => some []
  | x :: xs => do
    let e ← enc x
    let rest ← encodeAll enc xs
    pure (e ++ rest)

/-- Fuel-driven loop body of parseAll; the fuel only bounds the number
of iterations and never runs out when it starts at the byte count. -/
def parseAllFuel {α : Type} (p : Bytes → Option (α × Bytes)) :
    Nat → Bytes → Option (List α)
  | _, [] => some []
  | 0, _ :: _ => none
  | fuel + 1, b :: bs =>
    match p (b :: bs) with
    | none => none
    | some (x, l1) =>
      if l1.length < (b :: bs).length then
        match parseAllFuel p fuel l1 with
        | none => none
        | some xs => some (x :: xs)
      else none

/-- Run an element parser repeatedly until the byte string is
exhausted (the Go readVector loop). A parser step that consumes
nothing fails instead of looping. -/
def parseAll {α : Type} (p : Bytes → Option (α × Bytes)) (l : Bytes) :
    Option (List α) :=
  parseAllFuel p l.length l

/-- Modelled from the spec: repeated elements are a length-prefixed
vector of fixed-format entries, encoded element-by-element in their
existing order. -/
def writeVector {α : Type} (enc : α → Option Bytes) (xs : List α) :
    Option Bytes := do
  let body ← encodeAll enc xs
  writeOpaqueVec body

/-- Modelled from the spec: read a length-prefixed vector by parsing
entries until its byte range is exhausted. -/
def readVector {α : Type} (p : Bytes → Option (α × Bytes)) (s : Bytes) :
    Option (List α × Bytes) := do
  let (body, rest) ← readOpaqueVec s
  let xs ← parseAll p body
  pure (xs, rest)

/-- Modelled from the spec: per-epoch group metadata (group id, epoch,
tree hash, confirmed transcript hash, cipher suite id); its marshal and
unmarshal are part of the missing source. -/
structure groupContext where
  groupID : Bytes
  epoch : Nat
  treeHash : Bytes
  confirmedTranscriptHash : Bytes
  cipherSuite : Nat
deriving DecidableEq

/-- Modelled from the spec: groupContext encoding with opaque vectors
for byte fields and fixed-width integers for epoch (64-bit) and cipher
suite id (16-bit). -/
def groupContext.marshal (gc : groupContext) : Option Bytes := do
  let gid ← writeOpaqueVec gc.groupID
  let th ← writeOpaqueVec gc.treeHash
  let cth ← writeOpaqueVec gc.confirmedTranscriptHash
  pure (gid ++ writeUint64 gc.epoch ++ th ++ cth ++ writeUint16 gc.cipherSuite)

/-- Modelled from the spec: groupContext decoding. -/
def groupContext.unmarshal (s : Bytes) : Option (groupContext × Bytes) := do
  let (gid, s1) ← readOpaqueVec s
  let (ep, s2) ← readUint64 s1
  let (th, s3) ← readOpaqueVec s2
  let (cth, s4) ← readOpaqueVec s3
  let (cs, s5) ← readUint16 s4
  pure ({ groupID := gid, epoch := ep, treeHash := th,
          confirmedTranscriptHash := cth, cipherSuite := cs }, s5)

/-- Modelled from the spec: an array-backed binary tree whose nodes are
blank or carry public node material (kept opaque here). -/
abbrev ratchetTree := List (Option Bytes)

/-- Modelled from the spec: a tree node is an optional value, a one-byte
presence flag followed by the node content when present. -/
def treeNode.marshal : Option Bytes → Option Bytes
  | none => some (writeOptional false)
  | some content => do
    let c ← writeOpaqueVec content
    pure (writeOptional true ++ c)

/-- Modelled from the spec: read one optional tree node. -/
def treeNode.unmarshal (s : Bytes) : Option (Option Bytes × Bytes) := do
  let (present, s1) ← readOptional s
  if present then
    let (c, s2) ← readOpaqueVec s1
    pure (some c, s2)
  else
    pure (none, s1)

/-- Modelled from the spec: the tree is a vector of optional nodes. -/
def ratchetTree.marshal (t : ratchetTree) : Option Bytes :=
  writeVector treeNode.marshal t

/-- Modelled from the spec: decode the node vector. -/
def ratchetTree.unmarshal (s : Bytes) : Option (ratchetTree × Bytes) :=
  readVector treeNode.unmarshal s

/-- Modelled from the spec: a proposal is a tagged variant with one case
per kind (add, update, remove), each carrying only the fields that kind
needs. -/
inductive proposal where
  | add (keyPackage : Bytes)
  | update (keyPackage : Bytes)
  | remove (removed : Nat)
deriving DecidableEq

/-- Modelled from the spec: proposal encoding, a one-byte kind tag then
the kind's payload. -/
def proposal.marshal : proposal → Option Bytes
  | .add kp => do
    let k ← writeOpaqueVec kp
    pure (writeUint8 1 ++ k)
  | .update kp => do
    let k ← writeOpaqueVec kp
    pure (writeUint8 2 ++ k)
  | .remove idx => some (writeUint8 3 ++ writeUint32 idx)

/-- Modelled from the spec: proposal decoding; an unknown kind tag is
malformed. -/
def proposal.unmarshal (s : Bytes) : Option (proposal × Bytes) := do
  let (tag, s1) ← readUint8 s
  if tag = 1 then
    let (kp, s2) ← readOpaqueVec s1
    pure (proposal.add kp, s2)
  else if tag = 2 then
    let (kp, s2) ← readOpaqueVec s1
    pure (proposal.update kp, s2)
  else if tag = 3 then
    let (idx, s2) ← readUint32 s1
    pure (proposal.remove idx, s2)
  else none

/-- A pending proposal: reference hash, proposal body, sender leaf
index (src/group_state.go, used at lines 12-35). -/
structure pendingProposal where
  ref : Bytes
  proposal : proposal
  sender : Nat
deriving DecidableEq

/-- pendingProposal.marshal, src/group_state.go lines 12-16. -/
def pendingProposal.marshal (pp : pendingProposal) : Option Bytes := do
  let r ← writeOpaqueVec pp.ref
  let p ← pp.proposal.marshal
  pure (r ++ p ++ writeUint32 pp.sender)

/-- pendingProposal.unmarshal, src/group_state.go lines 18-35. -/
def pendingProposal.unmarshal (s : Bytes) : Option (pendingProposal × Bytes) := do
  let (r, s1) ← readOpaqueVec s
  let (p, s2) ← proposal.unmarshal s1
  let (snd, s3) ← readUint32 s2
  pure ({ ref := r, proposal := p, sender := snd }, s3)

/-- groupState, src/group_state.go lines 38-49. An hpkePrivateKey is a
Go byte slice that may be nil, modelled as Option Bytes. -/
structure groupState where
  groupContext : groupContext
  tree : ratchetTree
  interimTranscriptHash : Bytes
  pskSecret : Bytes
  epochSecret : Bytes
  initSecret : Bytes
  myLeafIndex : Nat
  privTree : List (Option Bytes)
  signaturePriv : Bytes
  pendingProposals : List pendingProposal
deriving DecidableEq

/-- One privTree entry as written by src/group_state.go lines 61-67: a
presence flag, then the key bytes when the key is not nil. -/
def privTreeEntry.marshal : Option Bytes → Option Bytes
  | none => some (writeOptional false)
  | some key => do
    let k ← writeOpaqueVec key
    pure (writeOptional true ++ k)

/-- One privTree entry as read by src/group_state.go lines 106-121. -/
def privTreeEntry.unmarshal (s : Bytes) : Option (Option Bytes × Bytes) := do
  let (present, s1) ← readOptional s
  if present then
    let (key, s2) ← readOpaqueVec s1
    pure (some key, s2)
  else
    pure (none, s1)

/-- groupState.marshal, src/group_state.go lines 51-75. -/
def groupState.marshal (gs : groupState) : Option Bytes := do
  let gc ← gs.groupContext.marshal
  let tr ← ratchetTree.marshal gs.tree
  let ith ← writeOpaqueVec gs.interimTranscriptHash
  let psk ← writeOpaqueVec gs.pskSecret
  let es ← writeOpaqueVec gs.epochSecret
  let is0 ← writeOpaqueVec gs.initSecret
  let pt ← writeVector privTreeEntry.marshal gs.privTree
  let sp ← writeOpaqueVec gs.signaturePriv
  let pps ← writeVector pendingProposal.marshal gs.pendingProposals
  pure (gc ++ tr ++ ith ++ psk ++ es ++ is0 ++
        writeUint32 gs.myLeafIndex ++ pt ++ sp ++ pps)

/-- groupState.unmarshal, src/group_state.go lines 77-146. -/
def groupState.unmarshal (s : Bytes) : Option (groupState × Bytes) := do
  let (gc, s1) ← groupContext.unmarshal s
  let (tr, s2) ← ratchetTree.unmarshal s1
  let (ith, s3) ← readOpaqueVec s2
  let (psk, s4) ← readOpaqueVec s3
  let (es, s5) ← readOpaqueVec s4
  let (is0, s6) ← readOpaqueVec s5
  let (li, s7) ← readUint32 s6
  let (pt, s8) ← readVector privTreeEntry.unmarshal s7
  let (sp, s9) ← readOpaqueVec s8
  let (pps, s10) ← readVector pendingProposal.unmarshal s9
  pure ({ groupContext := gc, tree := tr, interimTranscriptHash := ith,
          pskSecret := psk, epochSecret := es, initSecret := is0,
          myLeafIndex := li, privTree := pt, signaturePriv := sp,
          pendingProposals := pps }, s10)

/-- Modelled from the spec: the top-level decoder (missing codec
source) fails when trailing bytes remain beyond the last expected
field. -/
def unmarshalGroupStateBytes (data : Bytes) : Option groupState :=
  match groupState.unmarshal data with
  | some (gs, []) => some gs
  | _ => none

/-- The Group state machine, restricted to the fields touched by the
persistence layer (src/group_state.go lines 149-184) plus the
non-persisted secret-tree sender generation. -/
structure Group where
  groupContext : groupContext
  tree : ratchetTree
  interimTranscriptHash : Bytes
  pskSecret : Bytes
  epochSecret : Bytes
  initSecret : Bytes
  myLeafIndex : Nat
  privTree : List (Option Bytes)
  signaturePriv : Bytes
  pendingProposals : List pendingProposal
  appGeneration : Nat
deriving DecidableEq

/-- Group.Marshal, src/group_state.go lines 149-163: copy the ten
persisted fields into a groupState and serialize it. -/
def Group.Marshal (g : Group) : Option Bytes :=
  groupState.marshal
    { groupContext := g.groupContext
      tree := g.tree
      interimTranscriptHash := g.interimTranscriptHash
      pskSecret := g.pskSecret
      epochSecret := g.epochSecret
      initSecret := g.initSecret
      myLeafIndex := g.myLeafIndex
      privTree := g.privTree
      signaturePriv := g.signaturePriv
      pendingProposals := g.pendingProposals }

/-- State-passing form of Group.Marshal: the Go method takes a pointer
receiver, so the embedding also returns the receiver to record every
write to it; the method body (src/group_state.go lines 149-163) only
reads the fields, so the receiver passes through unchanged. -/
def Group.MarshalSt (g : Group) : Option Bytes × Group :=
  (g.Marshal, g)

/-- UnmarshalGroupState, src/group_state.go lines 166-184: decode a
groupState and copy its ten fields into a fresh Group; every other
Group field keeps its Go zero value. -/
def UnmarshalGroupState (data : Bytes) : Option Group :=
  match unmarshalGroupStateBytes data with
  | none => none
  | some gs =>
    some
      { groupContext := gs.groupContext
        tree := gs.tree
        interimTranscriptHash := gs.interimTranscriptHash
        pskSecret := gs.pskSecret
        epochSecret := gs.epochSecret
        initSecret := gs.initSecret
        myLeafIndex := gs.myLeafIndex
        privTree := gs.privTree
        signaturePriv := gs.signaturePriv
        pendingProposals := gs.pendingProposals
        appGeneration := 0 }

/-- Width bound of a proposal's numeric field (Go uint32). -/
def proposal.WFb : proposal → Bool
  | .remove idx => idx < 2^32
  | _ => true

/-- Width bounds of a pending proposal's numeric fields. -/
def pendingProposal.WFb (pp : pendingProposal) : Bool :=
  pp.proposal.WFb && pp.sender < 2^32

/-- Width bounds of all numeric fields of a Group, as the Go types
give them: epoch uint64, cipher suite uint16, leaf indices uint32. -/
def Group.WFb (g : Group) : Bool :=
  g.groupContext.epoch < 2^64 && g.groupContext.cipherSuite < 2^16 &&
  g.myLeafIndex < 2^32 && g.pendingProposals.all pendingProposal.WFb

/-- A small concrete Group exercising every branch of the codec:
a blank and a non-blank tree node, a held and a not-held private key,
and one pending proposal. -/
def demoGroup : Group :=
  { groupContext :=
      { groupID := [103, 49], epoch := 3, treeHash := [9],
        confirmedTranscriptHash := [], cipherSuite := 1 }
    tree := [some [3, 3], none, some []]
    interimTranscriptHash := [4]
    pskSecret := []
    epochSecret := [5]
    initSecret := [6, 6]
    myLeafIndex := 0
    privTree := [some [7], none, some []]
    signaturePriv := [8]
    pendingProposals :=
      [{ ref := [1], proposal := proposal.add [2], sender := 0 },
       { ref := [], proposal := proposal.remove 1, sender := 5 }]
    appGeneration := 0 }

/-- The persisted bytes of the demo Group. -/
def demoBytes : Bytes := (Group.Marshal demoGroup).getD []


/-- Truncation of a proposal's numeric field to its Go width (what a
decode of its encoding returns). -/
def proposal.norm : proposal → proposal
  | .remove idx => .remove (idx % 2^32)
  | p => p

/-- Truncation of a pending proposal's numeric fields to their Go
widths. -/
def pendingProposal.norm (pp : pendingProposal) : pendingProposal :=
  { ref := pp.ref, proposal := pp.proposal.norm, sender := pp.sender % 2^32 }

/-- Truncation of the groupContext numeric fields to their Go widths. -/
def groupContext.norm (gc : groupContext) : groupContext :=
  { gc with epoch := gc.epoch % 2^64, cipherSuite := gc.cipherSuite % 2^16 }

/-- Truncation of all groupState numeric fields to their Go widths. -/
def groupState.norm (gs : groupState) : groupState :=
  { gs with
    groupContext := gs.groupContext.norm
    myLeafIndex := gs.myLeafIndex % 2^32
    pendingProposals := gs.pendingProposals.map pendingProposal.norm }

/-- The demo Group with an empty pending-proposal list. -/
def demoGroupEmpty : Group := { demoGroup with pendingProposals := [] }

/-- The persisted bytes of the demo Group with no pending proposals. -/
def demoEmptyBytes : Bytes := (Group.Marshal demoGroupEmpty).getD []

/-- The Group restored from the demo bytes. -/
def demoRestored : Group := (UnmarshalGroupState demoBytes).getD demoGroup

/-- The Group restored from the empty-pending-proposal demo bytes. -/
def demoEmptyRestored : Group :=
  (UnmarshalGroupState demoEmptyBytes).getD demoGroup

/-- Modelled from the spec: the suite identifier of
MLS_128_DHKEMX25519_CHACHA20POLY1305_SHA256_Ed25519. -/
def cipherSuiteX25519ChaChaEd : Nat := 3

/-- Modelled from the spec: a credential is an opaque byte blob; the
basic credential wraps an identity. -/
def NewBasicCredential (identity : Bytes) : Bytes := identity

/-- Modelled from the spec: symbolic stand-in for the suite's key
derivation; a tagged, length-prefixed concatenation of its inputs, so
distinct labels and inputs give distinct outputs. -/
def kdf (label : Nat) (parts : List Bytes) : Bytes :=
  writeUint8 label ++ (encodeAll writeOpaqueVec parts).getD []

/-- Modelled from the spec: a KeyPairPackage is a public KeyPackage
blob plus the matching private signing and HPKE keys. -/
structure keyPairPackage where
  public : Bytes
  signaturePriv : Bytes
  hpkePriv : Bytes
deriving DecidableEq

/-- Modelled from the spec: suite key generation for a credential,
symbolic and deterministic in this model. -/
def GenerateKeyPairPackage (suite : Nat) (credential : Bytes) :
    keyPairPackage :=
  { public := kdf 10 [writeUint8 suite, credential]
    signaturePriv := kdf 11 [writeUint8 suite, credential]
    hpkePriv := kdf 12 [writeUint8 suite, credential] }

/-- Modelled from the spec: CreateGroup bootstraps a single-leaf tree
at epoch 0 with fresh symbolic secrets and an empty pending-proposal
set. -/
def CreateGroup (gid : Bytes) (kpp : keyPairPackage) : Group :=
  { groupContext :=
      { groupID := gid
        epoch := 0
        treeHash := kdf 20 [kpp.public]
        confirmedTranscriptHash := []
        cipherSuite := cipherSuiteX25519ChaChaEd }
    tree := [some kpp.public]
    interimTranscriptHash := kdf 21 [gid]
    pskSecret := []
    epochSecret := kdf 22 [gid, kpp.public]
    initSecret := kdf 23 [gid, kpp.public]
    myLeafIndex := 0
    privTree := [some kpp.hpkePriv]
    signaturePriv := kpp.signaturePriv
    pendingProposals := []
    appGeneration := 0 }

/-- Modelled from the spec: the per-sender, per-generation AEAD message
key of the secret tree, descending from the epoch secret. -/
def messageKey (epochSecret : Bytes) (leaf generation : Nat) : Bytes :=
  kdf 30 [epochSecret, writeUint32 leaf, writeUint32 generation]

/-- Modelled from the spec: symbolic AEAD seal, a formal pairing of key
and plaintext. -/
def aeadSeal (key pt : Bytes) : Bytes :=
  (writeOpaqueVec key).getD [] ++ (writeOpaqueVec pt).getD []

/-- Modelled from the spec: symbolic AEAD open; succeeds exactly on a
sealed pairing under the same key. -/
def aeadOpen (key ct : Bytes) : Option Bytes := do
  let (k, r1) ← readOpaqueVec ct
  let (pt, r2) ← readOpaqueVec r1
  if k = key then if r2 = [] then some pt else none else none

/-- Modelled from the spec: an application message carries the sender
leaf index and generation in its header, then the AEAD ciphertext;
encrypting advances the sender's generation counter. -/
def Group.CreateApplicationMessage (g : Group) (pt : Bytes) :
    Bytes × Group :=
  (writeUint32 g.myLeafIndex ++ writeUint32 g.appGeneration ++
     aeadSeal (messageKey g.epochSecret g.myLeafIndex g.appGeneration) pt,
   { g with appGeneration := g.appGeneration + 1 })

/-- Modelled from the spec: process an application message by reading
the sender leaf index and generation from the header and opening the
ciphertext with the matching secret-tree key. -/
def Group.UnmarshalAndProcessMessage (g : Group) (ct : Bytes) :
    Option Bytes := do
  let (leaf, r1) ← readUint32 ct
  let (generation, r2) ← readUint32 r1
  aeadOpen (messageKey g.epochSecret leaf generation) r2

/-- The group identifier of the concrete test scenario. -/
def testGroupID : Bytes := [116, 101, 115, 116, 45, 103, 114, 111, 117, 112]

/-- The identity bytes of the concrete test scenario. -/
def aliceIdentity : Bytes := [97, 108, 105, 99, 101]

/-- The plaintext of the concrete test scenario. -/
def helloWorld : Bytes := [104, 101, 108, 108, 111, 32, 119, 111, 114, 108, 100]

/-- The key pair package of the concrete test scenario. -/
def aliceKPP : keyPairPackage :=
  GenerateKeyPairPackage cipherSuiteX25519ChaChaEd
    (NewBasicCredential aliceIdentity)

/-- The freshly created group of the concrete test scenario. -/
def aliceGroup0 : Group := CreateGroup testGroupID aliceKPP

/-- The ciphertext produced in the concrete test scenario. -/
def helloCiphertext : Bytes :=
  (aliceGroup0.CreateApplicationMessage helloWorld).1

/-- The sender's group after encrypting in the concrete test
scenario. -/
def aliceGroup1 : Group :=
  (aliceGroup0.CreateApplicationMessage helloWorld).2

/-- The persisted bytes of the concrete test scenario. -/
def aliceMarshaled : Bytes := (aliceGroup1.Marshal).getD []


set_option maxRecDepth 4000

theorem mkByte_val (n : Nat) : (mkByte n).val = n % 256 := rfl

theorem mkByte_eq_self (b : Byte) : mkByte b.val = b := by
  apply Fin.ext
  simp [mkByte, Nat.mod_eq_of_lt b.isLt]

theorem readUint8_write (n : Nat) (r : Bytes) :
    readUint8 (writeUint8 n ++ r) = some (n % 2^8, r) := by
  simp [readUint8, writeUint8, mkByte]

theorem readUint8_exact {l : Bytes} {v : Nat} {r : Bytes}
    (h : readUint8 l = some (v, r)) : l = writeUint8 v ++ r ∧ v < 2^8 := by
  match l with
  | [] => simp [readUint8] at h
  | b :: br =>
    simp only [readUint8, Option.some.injEq, Prod.mk.injEq] at h
    obtain ⟨hv, hr⟩ := h
    subst hv hr
    exact ⟨by simp [writeUint8, mkByte_eq_self], b.isLt⟩

theorem readUint16_write (n : Nat) (r : Bytes) :
    readUint16 (writeUint16 n ++ r) = some (n % 2^16, r) := by
  simp only [readUint16, writeUint16, List.cons_append, List.nil_append,
    mkByte_val, Option.some.injEq, Prod.mk.injEq]
  constructor
  · omega
  · trivial

theorem readUint16_exact {l : Bytes} {v : Nat} {r : Bytes}
    (h : readUint16 l = some (v, r)) : l = writeUint16 v ++ r ∧ v < 2^16 := by
  match l with
  | [] => simp [readUint16] at h
  | [b] => simp [readUint16] at h
  | b0 :: b1 :: br =>
    simp only [readUint16, Option.some.injEq, Prod.mk.injEq] at h
    obtain ⟨hv, hr⟩ := h
    subst hv hr
    have h0 := b0.isLt
    have h1 := b1.isLt
    refine ⟨?_, by omega⟩
    simp only [writeUint16, List.cons_append, List.nil_append, List.cons.injEq]
    refine ⟨Fin.ext ?_, Fin.ext ?_, trivial⟩
    · simp only [mkByte_val]; omega
    · simp only [mkByte_val]; omega

theorem readUint32_write (n : Nat) (r : Bytes) :
    readUint32 (writeUint32 n ++ r) = some (n % 2^32, r) := by
  simp only [readUint32, writeUint32, List.cons_append, List.nil_append,
    mkByte_val, Option.some.injEq, Prod.mk.injEq]
  constructor
  · omega
  · trivial

theorem readUint32_exact {l : Bytes} {v : Nat} {r : Bytes}
    (h : readUint32 l = some (v, r)) : l = writeUint32 v ++ r ∧ v < 2^32 := by
  match l with
  | [] => simp [readUint32] at h
  | [b] => simp [readUint32] at h
  | [b, b1] => simp [readUint32] at h
  | [b, b1, b2] => simp [readUint32] at h
  | b0 :: b1 :: b2 :: b3 :: br =>
    simp only [readUint32, Option.some.injEq, Prod.mk.injEq] at h
    obtain ⟨hv, hr⟩ := h
    subst hv hr
    have h0 := b0.isLt
    have h1 := b1.isLt
    have h2 := b2.isLt
    have h3 := b3.isLt
    refine ⟨?_, by omega⟩
    simp only [writeUint32, List.cons_append, List.nil_append, List.cons.injEq]
    refine ⟨Fin.ext ?_, Fin.ext ?_, Fin.ext ?_, Fin.ext ?_, trivial⟩ <;>
      simp only [mkByte_val] <;> omega

theorem readUint64_write (n : Nat) (r : Bytes) :
    readUint64 (writeUint64 n ++ r) = some (n % 2^64, r) := by
  simp only [readUint64, writeUint64, List.cons_append, List.nil_append,
    mkByte_val, Option.some.injEq, Prod.mk.injEq]
  constructor
  · omega
  · trivial

theorem readUint64_exact {l : Bytes} {v : Nat} {r : Bytes}
    (h : readUint64 l = some (v, r)) : l = writeUint64 v ++ r ∧ v < 2^64 := by
  match l with
  | [] => simp [readUint64] at h
  | [b] => simp [readUint64] at h
  | [b, b1] => simp [readUint64] at h
  | [b, b1, b2] => simp [readUint64] at h
  | [b, b1, b2, b3] => simp [readUint64] at h
  | [b, b1, b2, b3, b4] => simp [readUint64] at h
  | [b, b1, b2, b3, b4, b5] => simp [readUint64] at h
  | [b, b1, b2, b3, b4, b5, b6] => simp [readUint64] at h
  | b0 :: b1 :: b2 :: b3 :: b4 :: b5 :: b6 :: b7 :: br =>
    simp only [readUint64, Option.some.injEq, Prod.mk.injEq] at h
    obtain ⟨hv, hr⟩ := h
    subst hv hr
    have h0 := b0.isLt
    have h1 := b1.isLt
    have h2 := b2.isLt
    have h3 := b3.isLt
    have h4 := b4.isLt
    have h5 := b5.isLt
    have h6 := b6.isLt
    have h7 := b7.isLt
    refine ⟨?_, by omega⟩
    simp only [writeUint64, List.cons_append, List.nil_append, List.cons.injEq]
    refine ⟨Fin.ext ?_, Fin.ext ?_, Fin.ext ?_, Fin.ext ?_, Fin.ext ?_,
      Fin.ext ?_, Fin.ext ?_, Fin.ext ?_, trivial⟩ <;>
      simp only [mkByte_val] <;> omega


theorem writeVarint_ne {n : Nat} {e : Bytes} (h : writeVarint n = some e) :
    e ≠ [] := by
  unfold writeVarint at h
  split_ifs at h
  · obtain rfl := Option.some.inj h; simp
  · obtain rfl := Option.some.inj h; simp
  · obtain rfl := Option.some.inj h; simp

theorem readVarint_write {n : Nat} {e : Bytes} (h : writeVarint n = some e)
    (r : Bytes) : readVarint (e ++ r) = some (n, r) := by
  unfold writeVarint at h
  split_ifs at h with h1 h2 h3
  · obtain rfl := Option.some.inj h
    have hv : (mkByte n).val = n := by simp only [mkByte_val]; omega
    simp only [List.cons_append, List.nil_append, readVarint, hv]
    rw [if_pos h1]
  · obtain rfl := Option.some.inj h
    have hv0 : (mkByte (2^6 + n / 2^8)).val = 2^6 + n / 2^8 := by
      simp only [mkByte_val]; omega
    simp only [List.cons_append, List.nil_append, readVarint, hv0, mkByte_val]
    rw [if_neg (by omega), if_pos (by omega)]
    have hn : (2^6 + n / 2^8 - 2^6) * 2^8 + n % 256 = n := by omega
    simp only [hn]
    rw [if_neg (by omega)]
  · obtain rfl := Option.some.inj h
    have hv0 : (mkByte (2^7 + n / 2^24)).val = 2^7 + n / 2^24 := by
      simp only [mkByte_val]; omega
    simp only [List.cons_append, List.nil_append, readVarint, hv0, mkByte_val]
    rw [if_neg (by omega), if_neg (by omega), if_pos (by omega)]
    have hn : (2^7 + n / 2^24 - 2^7) * 2^24 + n / 2^16 % 256 * 2^16 +
        n / 2^8 % 256 * 2^8 + n % 256 = n := by omega
    simp only [hn]
    rw [if_neg (by omega)]

theorem readVarint_exact {l : Bytes} {n : Nat} {r : Bytes}
    (h : readVarint l = some (n, r)) :
    ∃ e, writeVarint n = some e ∧ l = e ++ r ∧ n < 2^30 := by
  match l with
  | [] => simp [readVarint] at h
  | b :: rest =>
    have hb := b.isLt
    simp only [readVarint] at h
    split_ifs at h with hb1 hb2 hb3
    · simp only [Option.some.injEq, Prod.mk.injEq] at h
      obtain ⟨rfl, rfl⟩ := h
      refine ⟨[b], ?_, by simp, by omega⟩
      rw [writeVarint, if_pos hb1]
      simp [mkByte_eq_self]
    · match rest with
      | [] => simp at h
      | b1 :: r1 =>
        have hb1v := b1.isLt
        simp only at h
        split_ifs at h with hv
        simp only [Option.some.injEq, Prod.mk.injEq] at h
        obtain ⟨rfl, rfl⟩ := h
        refine ⟨[b, b1], ?_, by simp, by omega⟩
        rw [writeVarint, if_neg (by omega), if_pos (by omega)]
        simp only [Option.some.injEq, List.cons.injEq, and_true]
        refine ⟨Fin.ext ?_, Fin.ext ?_⟩ <;> simp only [mkByte_val] <;> omega
    · match rest with
      | [] => simp at h
      | [b1] => simp at h
      | [b1, b2] => simp at h
      | b1 :: b2 :: b3 :: r3 =>
        have hb1v := b1.isLt
        have hb2v := b2.isLt
        have hb3v := b3.isLt
        simp only at h
        split_ifs at h with hv
        simp only [Option.some.injEq, Prod.mk.injEq] at h
        obtain ⟨rfl, rfl⟩ := h
        refine ⟨[b, b1, b2, b3], ?_, by simp, by omega⟩
        rw [writeVarint, if_neg (by omega), if_neg (by omega), if_pos (by omega)]
        simp only [Option.some.injEq, List.cons.injEq, and_true]
        refine ⟨Fin.ext ?_, Fin.ext ?_, Fin.ext ?_, Fin.ext ?_⟩ <;>
          simp only [mkByte_val] <;> omega


theorem writeOpaqueVec_ne {v e : Bytes} (h : writeOpaqueVec v = some e) :
    e ≠ [] := by
  unfold writeOpaqueVec at h
  cases hw : writeVarint v.length with
  | none => rw [hw] at h; simp at h
  | some lv =>
    rw [hw] at h
    simp only [Option.map_some'] at h
    obtain rfl := Option.some.inj h
    have hne := writeVarint_ne hw
    simp [hne]

theorem readOpaqueVec_write {v e : Bytes} (h : writeOpaqueVec v = some e)
    (r : Bytes) : readOpaqueVec (e ++ r) = some (v, r) := by
  unfold writeOpaqueVec at h
  cases hw : writeVarint v.length with
  | none => rw [hw] at h; simp at h
  | some lv =>
    rw [hw] at h
    simp only [Option.map_some'] at h
    obtain rfl := Option.some.inj h
    simp [readOpaqueVec, List.append_assoc, readVarint_write hw,
      List.take_left, List.drop_left]

theorem readOpaqueVec_exact {l v r : Bytes} (h : readOpaqueVec l = some (v, r)) :
    ∃ e, writeOpaqueVec v = some e ∧ l = e ++ r := by
  unfold readOpaqueVec at h
  cases hr : readVarint l with
  | none => rw [hr] at h; simp at h
  | some nl =>
    obtain ⟨n, s1⟩ := nl
    rw [hr] at h
    simp only [Option.bind_eq_bind, Option.some_bind] at h
    split_ifs at h with hle
    simp only [Option.some.injEq, Prod.mk.injEq] at h
    obtain ⟨rfl, rfl⟩ := h
    obtain ⟨e0, he0, hl, hlt⟩ := readVarint_exact hr
    have hlen : (s1.take n).length = n := by
      simp [List.length_take, Nat.min_eq_left hle]
    refine ⟨e0 ++ s1.take n, ?_, ?_⟩
    · unfold writeOpaqueVec
      rw [hlen, he0]
      simp
    · rw [hl, List.append_assoc, List.take_append_drop]

theorem readOptional_write (b : Bool) (r : Bytes) :
    readOptional (writeOptional b ++ r) = some (b, r) := by
  cases b <;> simp [readOptional, writeOptional]

theorem readOptional_exact {l : Bytes} {b : Bool} {r : Bytes}
    (h : readOptional l = some (b, r)) : l = writeOptional b ++ r := by
  match l with
  | [] => simp [readOptional] at h
  | x :: xs =>
    simp only [readOptional] at h
    split_ifs at h with h0 h1
    · simp only [Option.some.injEq, Prod.mk.injEq] at h
      obtain ⟨rfl, rfl⟩ := h
      have : x = (0 : Byte) := Fin.ext h0
      simp [writeOptional, this]
    · simp only [Option.some.injEq, Prod.mk.injEq] at h
      obtain ⟨rfl, rfl⟩ := h
      have : x = (1 : Byte) := Fin.ext h1
      simp [writeOptional, this]

theorem parseAllFuel_of_encodeAll {α : Type} (enc : α → Option Bytes)
    (p : Bytes → Option (α × Bytes)) (f : α → α)
    (hrt : ∀ x e r, enc x = some e → p (e ++ r) = some (f x, r))
    (hne : ∀ x e, enc x = some e → e ≠ []) :
    ∀ (xs : List α) (body : Bytes) (fuel : Nat), encodeAll enc xs = some body →
      body.length ≤ fuel → parseAllFuel p fuel body = some (xs.map f) := by
  intro xs
  induction xs with
  | nil =>
    intro body fuel h hf
    obtain rfl : ([] : Bytes) = body := Option.some.inj h
    cases fuel <;> simp [parseAllFuel]
  | cons x xs ih =>
    intro body fuel h hf
    simp only [encodeAll, Option.bind_eq_bind, Option.bind_eq_some] at h
    obtain ⟨e, he, rest, hrest, hb⟩ := h
    obtain rfl : e ++ rest = body := Option.some.inj hb
    obtain ⟨eb, et, rfl⟩ : ∃ eb et, e = eb :: et := by
      cases e with
      | nil => exact absurd rfl (hne x [] he)
      | cons a l => exact ⟨a, l, rfl⟩
    match fuel with
    | 0 => simp at hf
    | fuel + 1 =>
      have hstep : p ((eb :: et) ++ rest) = some (f x, rest) := hrt x _ rest he
      simp only [List.cons_append] at hstep
      simp only [List.cons_append, parseAllFuel, List.append_eq]
      simp only [hstep]
      have hlt : rest.length < (eb :: (et ++ rest)).length := by
        simp [List.length_cons]; omega
      rw [if_pos hlt]
      have hle2 : rest.length ≤ fuel := by
        simp only [List.length_cons, List.length_append] at hf hlt ⊢
        omega
      rw [ih rest fuel hrest hle2]
      simp

theorem parseAll_of_encodeAll {α : Type} (enc : α → Option Bytes)
    (p : Bytes → Option (α × Bytes)) (f : α → α)
    (hrt : ∀ x e r, enc x = some e → p (e ++ r) = some (f x, r))
    (hne : ∀ x e, enc x = some e → e ≠ [])
    (xs : List α) (body : Bytes) (h : encodeAll enc xs = some body) :
    parseAll p body = some (xs.map f) :=
  parseAllFuel_of_encodeAll enc p f hrt hne xs body body.length h le_rfl

theorem encodeAll_of_parseAllFuel {α : Type} (enc : α → Option Bytes)
    (p : Bytes → Option (α × Bytes))
    (hex : ∀ l x r, p l = some (x, r) → ∃ e, enc x = some e ∧ l = e ++ r) :
    ∀ (fuel : Nat) (body : Bytes) (xs : List α),
      parseAllFuel p fuel body = some xs → encodeAll enc xs = some body := by
  intro fuel
  induction fuel with
  | zero =>
    intro body xs h
    match body with
    | [] =>
      obtain rfl := Option.some.inj h
      rfl
    | b :: bs => simp [parseAllFuel] at h
  | succ fuel ih =>
    intro body xs h
    match body with
    | [] =>
      obtain rfl := Option.some.inj h
      rfl
    | b :: bs =>
      simp only [parseAllFuel] at h
      cases hp : p (b :: bs) with
      | none => rw [hp] at h; simp at h
      | some xl =>
        obtain ⟨x, l1⟩ := xl
        rw [hp] at h
        simp only at h
        split_ifs at h with hlt
        cases hrec : parseAllFuel p fuel l1 with
        | none => rw [hrec] at h; simp at h
        | some xs1 =>
          rw [hrec] at h
          simp only [Option.some.injEq] at h
          obtain rfl := h.symm
          obtain ⟨e, he, hl⟩ := hex _ _ _ hp
          simp only [encodeAll, Option.bind_eq_bind, Option.bind_eq_some]
          exact ⟨e, he, l1, ih l1 xs1 hrec, by rw [hl]; rfl⟩

theorem encodeAll_of_parseAll {α : Type} (enc : α → Option Bytes)
    (p : Bytes → Option (α × Bytes))
    (hex : ∀ l x r, p l = some (x, r) → ∃ e, enc x = some e ∧ l = e ++ r)
    (body : Bytes) (xs : List α) (h : parseAll p body = some xs) :
    encodeAll enc xs = some body :=
  encodeAll_of_parseAllFuel enc p hex body.length body xs h


theorem readVector_write {α : Type} {enc : α → Option Bytes}
    {p : Bytes → Option (α × Bytes)} {f : α → α}
    (hrt : ∀ x e r, enc x = some e → p (e ++ r) = some (f x, r))
    (hne : ∀ x e, enc x = some e → e ≠ [])
    {xs : List α} {e : Bytes} (h : writeVector enc xs = some e) (r : Bytes) :
    readVector p (e ++ r) = some (xs.map f, r) := by
  unfold writeVector at h
  cases hb : encodeAll enc xs with
  | none => rw [hb] at h; simp at h
  | some body =>
    rw [hb] at h
    simp only [Option.bind_eq_bind, Option.some_bind] at h
    unfold readVector
    rw [readOpaqueVec_write h r]
    simp [parseAll_of_encodeAll enc p f hrt hne xs body hb]

theorem readVector_exact {α : Type} {enc : α → Option Bytes}
    {p : Bytes → Option (α × Bytes)}
    (hex : ∀ l x r, p l = some (x, r) → ∃ e, enc x = some e ∧ l = e ++ r)
    {l : Bytes} {xs : List α} {r : Bytes} (h : readVector p l = some (xs, r)) :
    ∃ e, writeVector enc xs = some e ∧ l = e ++ r := by
  unfold readVector at h
  cases hov : readOpaqueVec l with
  | none => rw [hov] at h; simp at h
  | some br =>
    obtain ⟨body, rest⟩ := br
    rw [hov] at h
    simp only [Option.bind_eq_bind, Option.some_bind] at h
    cases hpa : parseAll p body with
    | none => rw [hpa] at h; simp at h
    | some xs1 =>
      rw [hpa] at h
      simp only [Option.some_bind, Option.pure_def, Option.some.injEq,
        Prod.mk.injEq] at h
      obtain ⟨rfl, rfl⟩ := h
      obtain ⟨e0, he0, hl⟩ := readOpaqueVec_exact hov
      have hbody := encodeAll_of_parseAll enc p hex body xs1 hpa
      refine ⟨e0, ?_, hl⟩
      unfold writeVector
      rw [hbody]
      simpa using he0

theorem treeNode_marshal_ne {nd : Option Bytes} {e : Bytes}
    (h : treeNode.marshal nd = some e) : e ≠ [] := by
  match nd with
  | none =>
    obtain rfl := Option.some.inj h
    simp [writeOptional]
  | some c =>
    simp only [treeNode.marshal, Option.bind_eq_bind, Option.bind_eq_some,
      Option.pure_def, Option.some.injEq] at h
    obtain ⟨k, hk, rfl⟩ := h
    simp [writeOptional]

theorem treeNode_unmarshal_write {nd : Option Bytes} {e : Bytes}
    (h : treeNode.marshal nd = some e) (r : Bytes) :
    treeNode.unmarshal (e ++ r) = some (nd, r) := by
  match nd with
  | none =>
    obtain rfl := Option.some.inj h
    unfold treeNode.unmarshal
    rw [readOptional_write false r]
    simp
  | some c =>
    simp only [treeNode.marshal, Option.bind_eq_bind, Option.bind_eq_some,
      Option.pure_def, Option.some.injEq] at h
    obtain ⟨k, hk, rfl⟩ := h
    unfold treeNode.unmarshal
    rw [List.append_assoc, readOptional_write true (k ++ r)]
    simp [readOpaqueVec_write hk r]

theorem treeNode_unmarshal_exact {l : Bytes} {nd : Option Bytes} {r : Bytes}
    (h : treeNode.unmarshal l = some (nd, r)) :
    ∃ e, treeNode.marshal nd = some e ∧ l = e ++ r := by
  unfold treeNode.unmarshal at h
  cases hop : readOptional l with
  | none => rw [hop] at h; simp at h
  | some pr =>
    obtain ⟨present, s1⟩ := pr
    rw [hop] at h
    simp only [Option.bind_eq_bind, Option.some_bind] at h
    have hl := readOptional_exact hop
    cases present with
    | false =>
      simp only [Bool.false_eq_true, if_false, Option.pure_def,
        Option.some.injEq, Prod.mk.injEq] at h
      obtain ⟨rfl, rfl⟩ := h
      exact ⟨writeOptional false, rfl, hl⟩
    | true =>
      simp only [if_true] at h
      cases hov : readOpaqueVec s1 with
      | none => rw [hov] at h; simp at h
      | some cr =>
        obtain ⟨c, r1⟩ := cr
        rw [hov] at h
        simp only [Option.bind_eq_bind, Option.some_bind, Option.pure_def,
          Option.some.injEq, Prod.mk.injEq] at h
        obtain ⟨rfl, rfl⟩ := h
        obtain ⟨e0, he0, hs1⟩ := readOpaqueVec_exact hov
        refine ⟨writeOptional true ++ e0, ?_, ?_⟩
        · simp only [treeNode.marshal, Option.bind_eq_bind, he0,
            Option.some_bind]
          rfl
        · rw [hl, hs1, List.append_assoc]

theorem privTreeEntry_marshal_ne {nd : Option Bytes} {e : Bytes}
    (h : privTreeEntry.marshal nd = some e) : e ≠ [] := by
  match nd with
  | none =>
    obtain rfl := Option.some.inj h
    simp [writeOptional]
  | some c =>
    simp only [privTreeEntry.marshal, Option.bind_eq_bind, Option.bind_eq_some,
      Option.pure_def, Option.some.injEq] at h
    obtain ⟨k, hk, rfl⟩ := h
    simp [writeOptional]

theorem privTreeEntry_unmarshal_write {nd : Option Bytes} {e : Bytes}
    (h : privTreeEntry.marshal nd = some e) (r : Bytes) :
    privTreeEntry.unmarshal (e ++ r) = some (nd, r) := by
  match nd with
  | none =>
    obtain rfl := Option.some.inj h
    unfold privTreeEntry.unmarshal
    rw [readOptional_write false r]
    simp
  | some c =>
    simp only [privTreeEntry.marshal, Option.bind_eq_bind, Option.bind_eq_some,
      Option.pure_def, Option.some.injEq] at h
    obtain ⟨k, hk, rfl⟩ := h
    unfold privTreeEntry.unmarshal
    rw [List.append_assoc, readOptional_write true (k ++ r)]
    simp [readOpaqueVec_write hk r]

theorem privTreeEntry_unmarshal_exact {l : Bytes} {nd : Option Bytes}
    {r : Bytes} (h : privTreeEntry.unmarshal l = some (nd, r)) :
    ∃ e, privTreeEntry.marshal nd = some e ∧ l = e ++ r := by
  unfold privTreeEntry.unmarshal at h
  cases hop : readOptional l with
  | none => rw [hop] at h; simp at h
  | some pr =>
    obtain ⟨present, s1⟩ := pr
    rw [hop] at h
    simp only [Option.bind_eq_bind, Option.some_bind] at h
    have hl := readOptional_exact hop
    cases present with
    | false =>
      simp only [Bool.false_eq_true, if_false, Option.pure_def,
        Option.some.injEq, Prod.mk.injEq] at h
      obtain ⟨rfl, rfl⟩ := h
      exact ⟨writeOptional false, rfl, hl⟩
    | true =>
      simp only [if_true] at h
      cases hov : readOpaqueVec s1 with
      | none => rw [hov] at h; simp at h
      | some cr =>
        obtain ⟨c, r1⟩ := cr
        rw [hov] at h
        simp only [Option.bind_eq_bind, Option.some_bind, Option.pure_def,
          Option.some.injEq, Prod.mk.injEq] at h
        obtain ⟨rfl, rfl⟩ := h
        obtain ⟨e0, he0, hs1⟩ := readOpaqueVec_exact hov
        refine ⟨writeOptional true ++ e0, ?_, ?_⟩
        · simp only [privTreeEntry.marshal, Option.bind_eq_bind, he0,
            Option.some_bind]
          rfl
        · rw [hl, hs1, List.append_assoc]


theorem proposal_unmarshal_write {p : proposal} {e : Bytes}
    (h : proposal.marshal p = some e) (r : Bytes) :
    proposal.unmarshal (e ++ r) = some (p.norm, r) := by
  match p with
  | .add kp =>
    simp only [proposal.marshal, Option.bind_eq_bind, Option.bind_eq_some,
      Option.pure_def, Option.some.injEq] at h
    obtain ⟨k, hk, rfl⟩ := h
    unfold proposal.unmarshal
    rw [List.append_assoc, readUint8_write]
    simp [readOpaqueVec_write hk r, proposal.norm]
  | .update kp =>
    simp only [proposal.marshal, Option.bind_eq_bind, Option.bind_eq_some,
      Option.pure_def, Option.some.injEq] at h
    obtain ⟨k, hk, rfl⟩ := h
    unfold proposal.unmarshal
    rw [List.append_assoc, readUint8_write]
    simp [readOpaqueVec_write hk r, proposal.norm]
  | .remove idx =>
    obtain rfl := Option.some.inj h
    unfold proposal.unmarshal
    rw [List.append_assoc, readUint8_write]
    simp [readUint32_write, proposal.norm]

theorem proposal_unmarshal_exact {l : Bytes} {p : proposal} {r : Bytes}
    (h : proposal.unmarshal l = some (p, r)) :
    ∃ e, proposal.marshal p = some e ∧ l = e ++ r := by
  unfold proposal.unmarshal at h
  match l with
  | [] => simp [readUint8] at h
  | t :: s1 =>
    simp only [readUint8, Option.bind_eq_bind, Option.some_bind] at h
    split_ifs at h with h1 h2 h3
    · cases hov : readOpaqueVec s1 with
      | none => rw [hov] at h; simp at h
      | some w =>
        obtain ⟨kp, r1⟩ := w
        rw [hov] at h
        simp only [Option.bind_eq_bind, Option.some_bind, Option.pure_def,
          Option.some.injEq, Prod.mk.injEq] at h
        obtain ⟨rfl, rfl⟩ := h
        obtain ⟨e0, he0, hs1⟩ := readOpaqueVec_exact hov
        refine ⟨writeUint8 1 ++ e0, ?_, ?_⟩
        · simp only [proposal.marshal, Option.bind_eq_bind, he0,
            Option.some_bind]
          rfl
        · rw [hs1]
          have ht : t = mkByte 1 := Fin.ext (by simp [mkByte_val]; omega)
          simp [writeUint8, ht]
    · cases hov : readOpaqueVec s1 with
      | none => rw [hov] at h; simp at h
      | some w =>
        obtain ⟨kp, r1⟩ := w
        rw [hov] at h
        simp only [Option.bind_eq_bind, Option.some_bind, Option.pure_def,
          Option.some.injEq, Prod.mk.injEq] at h
        obtain ⟨rfl, rfl⟩ := h
        obtain ⟨e0, he0, hs1⟩ := readOpaqueVec_exact hov
        refine ⟨writeUint8 2 ++ e0, ?_, ?_⟩
        · simp only [proposal.marshal, Option.bind_eq_bind, he0,
            Option.some_bind]
          rfl
        · rw [hs1]
          have ht : t = mkByte 2 := Fin.ext (by simp [mkByte_val]; omega)
          simp [writeUint8, ht]
    · cases hi : readUint32 s1 with
      | none => rw [hi] at h; simp at h
      | some w =>
        obtain ⟨idx, r1⟩ := w
        rw [hi] at h
        simp only [Option.bind_eq_bind, Option.some_bind, Option.pure_def,
          Option.some.injEq, Prod.mk.injEq] at h
        obtain ⟨rfl, rfl⟩ := h
        obtain ⟨hs1, hidx⟩ := readUint32_exact hi
        refine ⟨writeUint8 3 ++ writeUint32 idx, rfl, ?_⟩
        rw [hs1]
        have ht : t = mkByte 3 := Fin.ext (by simp [mkByte_val]; omega)
        simp [writeUint8, ht]

theorem pendingProposal_marshal_ne {pp : pendingProposal} {e : Bytes}
    (h : pendingProposal.marshal pp = some e) : e ≠ [] := by
  simp only [pendingProposal.marshal, Option.bind_eq_bind, Option.bind_eq_some,
    Option.pure_def, Option.some.injEq] at h
  obtain ⟨r0, hr0, p0, hp0, rfl⟩ := h
  have := writeOpaqueVec_ne hr0
  simp [this]

theorem pendingProposal_unmarshal_write {pp : pendingProposal} {e : Bytes}
    (h : pendingProposal.marshal pp = some e) (r : Bytes) :
    pendingProposal.unmarshal (e ++ r) = some (pp.norm, r) := by
  simp only [pendingProposal.marshal, Option.bind_eq_bind, Option.bind_eq_some,
    Option.pure_def, Option.some.injEq] at h
  obtain ⟨r0, hr0, p0, hp0, rfl⟩ := h
  unfold pendingProposal.unmarshal
  simp only [List.append_assoc]
  rw [readOpaqueVec_write hr0]
  simp only [Option.bind_eq_bind, Option.some_bind]
  rw [proposal_unmarshal_write hp0]
  simp only [Option.some_bind]
  rw [readUint32_write]
  simp [pendingProposal.norm]

theorem pendingProposal_unmarshal_exact {l : Bytes} {pp : pendingProposal}
    {r : Bytes} (h : pendingProposal.unmarshal l = some (pp, r)) :
    ∃ e, pendingProposal.marshal pp = some e ∧ l = e ++ r := by
  unfold pendingProposal.unmarshal at h
  cases h1 : readOpaqueVec l with
  | none => rw [h1] at h; simp at h
  | some w1 =>
    obtain ⟨r0, s1⟩ := w1
    rw [h1] at h
    simp only [Option.bind_eq_bind, Option.some_bind] at h
    cases h2 : proposal.unmarshal s1 with
    | none => rw [h2] at h; simp at h
    | some w2 =>
      obtain ⟨p0, s2⟩ := w2
      rw [h2] at h
      simp only [Option.some_bind] at h
      cases h3 : readUint32 s2 with
      | none => rw [h3] at h; simp at h
      | some w3 =>
        obtain ⟨snd, s3⟩ := w3
        rw [h3] at h
        simp only [Option.some_bind, Option.pure_def, Option.some.injEq,
          Prod.mk.injEq] at h
        obtain ⟨rfl, rfl⟩ := h
        obtain ⟨e1, he1, hl⟩ := readOpaqueVec_exact h1
        obtain ⟨e2, he2, hs1⟩ := proposal_unmarshal_exact h2
        obtain ⟨hs2, hsnd⟩ := readUint32_exact h3
        refine ⟨e1 ++ (e2 ++ writeUint32 snd), ?_, ?_⟩
        · simp only [pendingProposal.marshal, Option.bind_eq_bind, he1, he2,
            Option.some_bind]
          simp [List.append_assoc]
        · rw [hl, hs1, hs2]
          simp [List.append_assoc]


theorem groupContext_unmarshal_write {gc : groupContext} {e : Bytes}
    (h : groupContext.marshal gc = some e) (r : Bytes) :
    groupContext.unmarshal (e ++ r) = some (gc.norm, r) := by
  simp only [groupContext.marshal, Option.bind_eq_bind, Option.bind_eq_some,
    Option.pure_def, Option.some.injEq] at h
  obtain ⟨g1, hg1, g3, hg3, g4, hg4, rfl⟩ := h
  unfold groupContext.unmarshal
  simp only [List.append_assoc]
  rw [readOpaqueVec_write hg1]
  simp only [Option.bind_eq_bind, Option.some_bind]
  rw [readUint64_write]
  simp only [Option.some_bind]
  rw [readOpaqueVec_write hg3]
  simp only [Option.some_bind]
  rw [readOpaqueVec_write hg4]
  simp only [Option.some_bind]
  rw [readUint16_write]
  simp [groupContext.norm]

theorem groupContext_unmarshal_exact {l : Bytes} {gc : groupContext}
    {r : Bytes} (h : groupContext.unmarshal l = some (gc, r)) :
    ∃ e, groupContext.marshal gc = some e ∧ l = e ++ r := by
  unfold groupContext.unmarshal at h
  cases h1 : readOpaqueVec l with
  | none => rw [h1] at h; simp at h
  | some w1 =>
    obtain ⟨gid, s1⟩ := w1
    rw [h1] at h
    simp only [Option.bind_eq_bind, Option.some_bind] at h
    cases h2 : readUint64 s1 with
    | none => rw [h2] at h; simp at h
    | some w2 =>
      obtain ⟨ep, s2⟩ := w2
      rw [h2] at h
      simp only [Option.some_bind] at h
      cases h3 : readOpaqueVec s2 with
      | none => rw [h3] at h; simp at h
      | some w3 =>
        obtain ⟨th, s3⟩ := w3
        rw [h3] at h
        simp only [Option.some_bind] at h
        cases h4 : readOpaqueVec s3 with
        | none => rw [h4] at h; simp at h
        | some w4 =>
          obtain ⟨cth, s4⟩ := w4
          rw [h4] at h
          simp only [Option.some_bind] at h
          cases h5 : readUint16 s4 with
          | none => rw [h5] at h; simp at h
          | some w5 =>
            obtain ⟨cs, s5⟩ := w5
            rw [h5] at h
            simp only [Option.some_bind, Option.pure_def, Option.some.injEq,
              Prod.mk.injEq] at h
            obtain ⟨rfl, rfl⟩ := h
            obtain ⟨e1, he1, hl⟩ := readOpaqueVec_exact h1
            obtain ⟨hs1, hep⟩ := readUint64_exact h2
            obtain ⟨e3, he3, hs2⟩ := readOpaqueVec_exact h3
            obtain ⟨e4, he4, hs3⟩ := readOpaqueVec_exact h4
            obtain ⟨hs4, hcs⟩ := readUint16_exact h5
            refine ⟨e1 ++ (writeUint64 ep ++ (e3 ++ (e4 ++ writeUint16 cs))),
              ?_, ?_⟩
            · simp only [groupContext.marshal, Option.bind_eq_bind, he1, he3,
                he4, Option.some_bind]
              simp [List.append_assoc]
            · rw [hl, hs1, hs2, hs3, hs4]
              simp [List.append_assoc]

theorem ratchetTree_unmarshal_write {t : ratchetTree} {e : Bytes}
    (h : ratchetTree.marshal t = some e) (r : Bytes) :
    ratchetTree.unmarshal (e ++ r) = some (t, r) := by
  unfold ratchetTree.marshal at h
  unfold ratchetTree.unmarshal
  have hr := readVector_write (p := treeNode.unmarshal) (f := id)
    (fun x e r hx => treeNode_unmarshal_write hx r)
    (fun x e hx => treeNode_marshal_ne hx) h r
  simpa using hr

theorem ratchetTree_unmarshal_exact {l : Bytes} {t : ratchetTree} {r : Bytes}
    (h : ratchetTree.unmarshal l = some (t, r)) :
    ∃ e, ratchetTree.marshal t = some e ∧ l = e ++ r := by
  unfold ratchetTree.unmarshal at h
  unfold ratchetTree.marshal
  exact readVector_exact (fun l x r hx => treeNode_unmarshal_exact hx) h

theorem privTree_read_write {xs : List (Option Bytes)} {e : Bytes}
    (h : writeVector privTreeEntry.marshal xs = some e) (r : Bytes) :
    readVector privTreeEntry.unmarshal (e ++ r) = some (xs, r) := by
  have hr := readVector_write (p := privTreeEntry.unmarshal) (f := id)
    (fun x e r hx => privTreeEntry_unmarshal_write hx r)
    (fun x e hx => privTreeEntry_marshal_ne hx) h r
  simpa using hr

theorem privTree_read_exact {l : Bytes} {xs : List (Option Bytes)} {r : Bytes}
    (h : readVector privTreeEntry.unmarshal l = some (xs, r)) :
    ∃ e, writeVector privTreeEntry.marshal xs = some e ∧ l = e ++ r :=
  readVector_exact (fun l x r hx => privTreeEntry_unmarshal_exact hx) h

theorem pendingVector_read_write {xs : List pendingProposal} {e : Bytes}
    (h : writeVector pendingProposal.marshal xs = some e) (r : Bytes) :
    readVector pendingProposal.unmarshal (e ++ r) =
      some (xs.map pendingProposal.norm, r) :=
  readVector_write (p := pendingProposal.unmarshal) (f := pendingProposal.norm)
    (fun x e r hx => pendingProposal_unmarshal_write hx r)
    (fun x e hx => pendingProposal_marshal_ne hx) h r

theorem pendingVector_read_exact {l : Bytes} {xs : List pendingProposal}
    {r : Bytes} (h : readVector pendingProposal.unmarshal l = some (xs, r)) :
    ∃ e, writeVector pendingProposal.marshal xs = some e ∧ l = e ++ r :=
  readVector_exact (fun l x r hx => pendingProposal_unmarshal_exact hx) h

theorem groupState_unmarshal_write {gs : groupState} {e : Bytes}
    (h : groupState.marshal gs = some e) (r : Bytes) :
    groupState.unmarshal (e ++ r) = some (gs.norm, r) := by
  simp only [groupState.marshal, Option.bind_eq_bind, Option.bind_eq_some,
    Option.pure_def, Option.some.injEq] at h
  obtain ⟨gc, hgc, tr, htr, ith, hith, psk, hpsk, es, hes, is0, his0, pt, hpt,
    sp, hsp, pps, hpps, rfl⟩ := h
  unfold groupState.unmarshal
  simp only [List.append_assoc]
  rw [groupContext_unmarshal_write hgc]
  simp only [Option.bind_eq_bind, Option.some_bind]
  rw [ratchetTree_unmarshal_write htr]
  simp only [Option.some_bind]
  rw [readOpaqueVec_write hith]
  simp only [Option.some_bind]
  rw [readOpaqueVec_write hpsk]
  simp only [Option.some_bind]
  rw [readOpaqueVec_write hes]
  simp only [Option.some_bind]
  rw [readOpaqueVec_write his0]
  simp only [Option.some_bind]
  rw [readUint32_write]
  simp only [Option.some_bind]
  rw [privTree_read_write hpt]
  simp only [Option.some_bind]
  rw [readOpaqueVec_write hsp]
  simp only [Option.some_bind]
  rw [pendingVector_read_write hpps]
  simp [groupState.norm]


theorem groupState_unmarshal_exact {l : Bytes} {gs : groupState} {r : Bytes}
    (h : groupState.unmarshal l = some (gs, r)) :
    ∃ e, groupState.marshal gs = some e ∧ l = e ++ r := by
  unfold groupState.unmarshal at h
  cases h1 : groupContext.unmarshal l with
  | none => rw [h1] at h; simp only [Option.bind_eq_bind, Option.none_bind] at h; exact Option.noConfusion h
  | some w1 =>
    obtain ⟨gc, s1⟩ := w1
    rw [h1] at h
    simp only [Option.bind_eq_bind, Option.some_bind] at h
    cases h2 : ratchetTree.unmarshal s1 with
    | none => rw [h2] at h; simp only [Option.bind_eq_bind, Option.none_bind] at h; exact Option.noConfusion h
    | some w2 =>
      obtain ⟨tr, s2⟩ := w2
      rw [h2] at h
      simp only [Option.some_bind] at h
      cases h3 : readOpaqueVec s2 with
      | none => rw [h3] at h; simp only [Option.bind_eq_bind, Option.none_bind] at h; exact Option.noConfusion h
      | some w3 =>
        obtain ⟨ith, s3⟩ := w3
        rw [h3] at h
        simp only [Option.some_bind] at h
        cases h4 : readOpaqueVec s3 with
        | none => rw [h4] at h; simp only [Option.bind_eq_bind, Option.none_bind] at h; exact Option.noConfusion h
        | some w4 =>
          obtain ⟨psk, s4⟩ := w4
          rw [h4] at h
          simp only [Option.some_bind] at h
          cases h5 : readOpaqueVec s4 with
          | none => rw [h5] at h; simp only [Option.bind_eq_bind, Option.none_bind] at h; exact Option.noConfusion h
          | some w5 =>
            obtain ⟨es, s5⟩ := w5
            rw [h5] at h
            simp only [Option.some_bind] at h
            cases h6 : readOpaqueVec s5 with
            | none => rw [h6] at h; simp only [Option.bind_eq_bind, Option.none_bind] at h; exact Option.noConfusion h
            | some w6 =>
              obtain ⟨is0, s6⟩ := w6
              rw [h6] at h
              simp only [Option.some_bind] at h
              cases h7 : readUint32 s6 with
              | none => rw [h7] at h; simp only [Option.bind_eq_bind, Option.none_bind] at h; exact Option.noConfusion h
              | some w7 =>
                obtain ⟨li, s7⟩ := w7
                rw [h7] at h
                simp only [Option.some_bind] at h
                cases h8 : readVector privTreeEntry.unmarshal s7 with
                | none => rw [h8] at h; simp only [Option.bind_eq_bind, Option.none_bind] at h; exact Option.noConfusion h
                | some w8 =>
                  obtain ⟨pt, s8⟩ := w8
                  rw [h8] at h
                  simp only [Option.some_bind] at h
                  cases h9 : readOpaqueVec s8 with
                  | none => rw [h9] at h; simp only [Option.bind_eq_bind, Option.none_bind] at h; exact Option.noConfusion h
                  | some w9 =>
                    obtain ⟨sp, s9⟩ := w9
                    rw [h9] at h
                    simp only [Option.some_bind] at h
                    cases h10 : readVector pendingProposal.unmarshal s9 with
                    | none => rw [h10] at h; simp only [Option.bind_eq_bind, Option.none_bind] at h; exact Option.noConfusion h
                    | some w10 =>
                      obtain ⟨pps, s10⟩ := w10
                      rw [h10] at h
                      simp only [Option.some_bind, Option.pure_def,
                        Option.some.injEq, Prod.mk.injEq] at h
                      obtain ⟨rfl, rfl⟩ := h
                      obtain ⟨e1, he1, hl⟩ := groupContext_unmarshal_exact h1
                      obtain ⟨e2, he2, hs1⟩ := ratchetTree_unmarshal_exact h2
                      obtain ⟨e3, he3, hs2⟩ := readOpaqueVec_exact h3
                      obtain ⟨e4, he4, hs3⟩ := readOpaqueVec_exact h4
                      obtain ⟨e5, he5, hs4⟩ := readOpaqueVec_exact h5
                      obtain ⟨e6, he6, hs5⟩ := readOpaqueVec_exact h6
                      obtain ⟨hs6, hli⟩ := readUint32_exact h7
                      obtain ⟨e8, he8, hs7⟩ := privTree_read_exact h8
                      obtain ⟨e9, he9, hs8⟩ := readOpaqueVec_exact h9
                      obtain ⟨e10, he10, hs9⟩ := pendingVector_read_exact h10
                      refine ⟨e1 ++ (e2 ++ (e3 ++ (e4 ++ (e5 ++ (e6 ++
                        (writeUint32 li ++ (e8 ++ (e9 ++ e10)))))))), ?_, ?_⟩
                      · simp only [groupState.marshal, Option.bind_eq_bind,
                          he1, he2, he3, he4, he5, he6, he8, he9, he10,
                          Option.some_bind]
                        simp [List.append_assoc]
                      · rw [hl, hs1, hs2, hs3, hs4, hs5, hs6, hs7, hs8, hs9]
                        simp [List.append_assoc]


theorem unmarshalGroupStateBytes_write {gs : groupState} {e : Bytes}
    (h : groupState.marshal gs = some e) :
    unmarshalGroupStateBytes e = some gs.norm := by
  unfold unmarshalGroupStateBytes
  have hr := groupState_unmarshal_write h []
  rw [List.append_nil] at hr
  rw [hr]

theorem unmarshalGroupStateBytes_exact {data : Bytes} {gs : groupState}
    (h : unmarshalGroupStateBytes data = some gs) :
    groupState.marshal gs = some data := by
  unfold unmarshalGroupStateBytes at h
  cases hu : groupState.unmarshal data with
  | none => rw [hu] at h; exact Option.noConfusion h
  | some w =>
    obtain ⟨gs1, rest⟩ := w
    rw [hu] at h
    match rest with
    | [] =>
      obtain rfl := Option.some.inj h
      obtain ⟨e, he, hdata⟩ := groupState_unmarshal_exact hu
      rw [List.append_nil] at hdata
      rw [← hdata] at he
      exact he
    | b :: bs => exact Option.noConfusion h

theorem writeUint16_mod (n : Nat) : writeUint16 (n % 2^16) = writeUint16 n := by
  simp only [writeUint16, List.cons.injEq, and_true]
  constructor <;> (apply Fin.ext; simp only [mkByte_val]; omega)

theorem writeUint32_mod (n : Nat) : writeUint32 (n % 2^32) = writeUint32 n := by
  simp only [writeUint32, List.cons.injEq, and_true]
  refine ⟨?_, ?_, ?_, ?_⟩ <;> (apply Fin.ext; simp only [mkByte_val]; omega)

theorem writeUint64_mod (n : Nat) : writeUint64 (n % 2^64) = writeUint64 n := by
  simp only [writeUint64, List.cons.injEq, and_true]
  refine ⟨?_, ?_, ?_, ?_, ?_, ?_, ?_, ?_⟩ <;>
    (apply Fin.ext; simp only [mkByte_val]; omega)

theorem proposal_marshal_norm (p : proposal) :
    proposal.marshal p.norm = proposal.marshal p := by
  cases p with
  | add kp => rfl
  | update kp => rfl
  | remove idx =>
    simp only [proposal.norm, proposal.marshal]
    rw [writeUint32_mod]

theorem pendingProposal_marshal_norm (pp : pendingProposal) :
    pendingProposal.marshal pp.norm = pendingProposal.marshal pp := by
  simp only [pendingProposal.marshal, pendingProposal.norm,
    proposal_marshal_norm, writeUint32_mod]

theorem groupContext_marshal_norm (gc : groupContext) :
    groupContext.marshal gc.norm = groupContext.marshal gc := by
  simp only [groupContext.marshal, groupContext.norm, writeUint64_mod,
    writeUint16_mod]

theorem encodeAll_map_stable {α : Type} (enc : α → Option Bytes) (f : α → α)
    (hf : ∀ x, enc (f x) = enc x) (xs : List α) :
    encodeAll enc (xs.map f) = encodeAll enc xs := by
  induction xs with
  | nil => rfl
  | cons x xs ih => simp [encodeAll, hf x, ih]

theorem writeVector_map_stable {α : Type} (enc : α → Option Bytes) (f : α → α)
    (hf : ∀ x, enc (f x) = enc x) (xs : List α) :
    writeVector enc (xs.map f) = writeVector enc xs := by
  unfold writeVector
  rw [encodeAll_map_stable enc f hf xs]

theorem groupState_marshal_norm (gs : groupState) :
    groupState.marshal gs.norm = groupState.marshal gs := by
  simp only [groupState.marshal, groupState.norm]
  rw [groupContext_marshal_norm, writeUint32_mod,
    writeVector_map_stable pendingProposal.marshal pendingProposal.norm
      pendingProposal_marshal_norm]

theorem Group.Marshal_restored (gs : groupState) :
    Group.Marshal
      { groupContext := gs.groupContext
        tree := gs.tree
        interimTranscriptHash := gs.interimTranscriptHash
        pskSecret := gs.pskSecret
        epochSecret := gs.epochSecret
        initSecret := gs.initSecret
        myLeafIndex := gs.myLeafIndex
        privTree := gs.privTree
        signaturePriv := gs.signaturePriv
        pendingProposals := gs.pendingProposals
        appGeneration := 0 } = groupState.marshal gs := rfl

theorem UnmarshalGroupState_marshal {data : Bytes} {G : Group}
    (h : UnmarshalGroupState data = some G) :
    Group.Marshal G = some data := by
  unfold UnmarshalGroupState at h
  cases hu : unmarshalGroupStateBytes data with
  | none => rw [hu] at h; exact Option.noConfusion h
  | some gs =>
    rw [hu] at h
    obtain rfl := Option.some.inj h
    rw [Group.Marshal_restored]
    exact unmarshalGroupStateBytes_exact hu


theorem UnmarshalGroupState_some {data : Bytes} {gs : groupState}
    (h : unmarshalGroupStateBytes data = some gs) :
    UnmarshalGroupState data =
      some
        { groupContext := gs.groupContext
          tree := gs.tree
          interimTranscriptHash := gs.interimTranscriptHash
          pskSecret := gs.pskSecret
          epochSecret := gs.epochSecret
          initSecret := gs.initSecret
          myLeafIndex := gs.myLeafIndex
          privTree := gs.privTree
          signaturePriv := gs.signaturePriv
          pendingProposals := gs.pendingProposals
          appGeneration := 0 } := by
  unfold UnmarshalGroupState
  rw [h]

theorem proposal_norm_of_wfb {p : proposal} (h : p.WFb = true) : p.norm = p := by
  cases p with
  | add kp => rfl
  | update kp => rfl
  | remove idx =>
    simp only [proposal.WFb, decide_eq_true_eq] at h
    simp only [proposal.norm]
    rw [Nat.mod_eq_of_lt h]

theorem pendingProposal_norm_of_wfb {pp : pendingProposal}
    (h : pp.WFb = true) : pp.norm = pp := by
  simp only [pendingProposal.WFb, Bool.and_eq_true, decide_eq_true_eq] at h
  obtain ⟨hp, hs⟩ := h
  simp only [pendingProposal.norm, proposal_norm_of_wfb hp,
    Nat.mod_eq_of_lt hs]

theorem map_norm_of_all_wfb {xs : List pendingProposal}
    (h : xs.all pendingProposal.WFb = true) :
    xs.map pendingProposal.norm = xs := by
  induction xs with
  | nil => rfl
  | cons x xs ih =>
    simp only [List.all_cons, Bool.and_eq_true] at h
    simp only [List.map_cons, pendingProposal_norm_of_wfb h.1, ih h.2]

theorem groupContext_norm_of_bounds {gc : groupContext}
    (hep : gc.epoch < 2^64) (hcs : gc.cipherSuite < 2^16) : gc.norm = gc := by
  simp only [groupContext.norm, Nat.mod_eq_of_lt hep, Nat.mod_eq_of_lt hcs]

/-- C1: for every Group state G that Marshal serializes to a byte
string, UnmarshalGroupState accepts that byte string and marshaling the
restored Group again yields a byte string equal to the first one,
byte-for-byte. -/
theorem marshal_unmarshal_remarshal_eq (G : Group) (bs : Bytes)
    (h : Group.Marshal G = some bs) :
    ∃ G1, UnmarshalGroupState bs = some G1 ∧ Group.Marshal G1 = some bs := by
  unfold Group.Marshal at h
  have hw := unmarshalGroupStateBytes_write h
  refine ⟨_, UnmarshalGroupState_some hw, ?_⟩
  rw [Group.Marshal_restored, groupState_marshal_norm]
  exact h

/-- C1 witness: the demo group round-trips to identical bytes. -/
theorem marshal_unmarshal_remarshal_eq_witness :
    ∃ G1, UnmarshalGroupState demoBytes = some G1 ∧
      Group.Marshal G1 = some demoBytes :=
  marshal_unmarshal_remarshal_eq demoGroup demoBytes (by rfl)

/-- C2: every byte string accepted by UnmarshalGroupState is reproduced
exactly by re-encoding the decoded Group with Marshal. -/
theorem decode_reencode_exact (data : Bytes) (G : Group)
    (h : UnmarshalGroupState data = some G) :
    Group.Marshal G = some data :=
  UnmarshalGroupState_marshal h

/-- C2 witness: decoding the demo bytes and re-encoding reproduces
them. -/
theorem decode_reencode_exact_witness :
    Group.Marshal demoRestored = some demoBytes :=
  decode_reencode_exact demoBytes demoRestored (by decide)

/-- C3: decoding fails, rather than substituting defaults, on every
truncation of a valid encoding, on trailing bytes beyond the last field,
and on an invalid (reserved top-bits-11) length prefix. -/
theorem decode_rejects_malformed (G : Group) (bs : Bytes)
    (h : Group.Marshal G = some bs) :
    (∀ k, k < bs.length → UnmarshalGroupState (bs.take k) = none) ∧
    (∀ extra, extra ≠ [] → UnmarshalGroupState (bs ++ extra) = none) ∧
    (∀ (b : Byte) (rest : Bytes), 2^6 + 2^7 ≤ b.val →
      UnmarshalGroupState (b :: rest) = none) := by
  unfold Group.Marshal at h
  refine ⟨?_, ?_, ?_⟩
  · intro k hk
    cases hcase : UnmarshalGroupState (bs.take k) with
    | none => rfl
    | some G1 =>
      exfalso
      have hm1 := UnmarshalGroupState_marshal hcase
      unfold Group.Marshal at hm1
      have hp1 := groupState_unmarshal_write hm1 (bs.drop k)
      rw [List.take_append_drop] at hp1
      have hp0 := groupState_unmarshal_write h []
      rw [List.append_nil] at hp0
      rw [hp0] at hp1
      simp only [Option.some.injEq, Prod.mk.injEq] at hp1
      have hdrop : bs.drop k = [] := hp1.2.symm
      have hlen : (bs.drop k).length = bs.length - k := List.length_drop k bs
      rw [hdrop] at hlen
      simp only [List.length_nil] at hlen
      omega
  · intro extra hextra
    have hp := groupState_unmarshal_write h extra
    unfold UnmarshalGroupState unmarshalGroupStateBytes
    rw [hp]
    cases extra with
    | nil => exact absurd rfl hextra
    | cons b bs2 => rfl
  · intro b rest hb
    have hv : readVarint (b :: rest) = none := by
      simp only [readVarint]
      rw [if_neg (by omega), if_neg (by omega), if_neg (by omega)]
    unfold UnmarshalGroupState unmarshalGroupStateBytes groupState.unmarshal
      groupContext.unmarshal readOpaqueVec
    rw [hv]
    rfl

/-- C3 witness: the demo bytes reject a one-byte truncation, one
trailing zero byte, and a leading reserved length prefix. -/
theorem decode_rejects_malformed_witness :
    UnmarshalGroupState (demoBytes.take (demoBytes.length - 1)) = none ∧
    UnmarshalGroupState (demoBytes ++ [0]) = none ∧
    UnmarshalGroupState (⟨192, by omega⟩ :: demoBytes) = none := by
  have h3 := decode_rejects_malformed demoGroup demoBytes (by rfl)
  refine ⟨h3.1 _ (by decide), h3.2.1 [0] (by decide), h3.2.2 _ demoBytes (by decide)⟩


/-- C4: the marshaled byte string is exactly the concatenation of the
encodings of the ten persisted components in wire order (GroupContext,
RatchetTree, interim transcript hash, pskSecret, epoch secret, init
secret, own LeafIndex, private-key column, signature private key,
pending proposals), and UnmarshalGroupState restores every one of these
fields from the bytes alone. -/
theorem persisted_fields_complete (G : Group) (bs : Bytes)
    (hwf : G.WFb = true) (h : Group.Marshal G = some bs) :
    ∃ e1 e2 e3 e4 e5 e6 e8 e9 e10,
      groupContext.marshal G.groupContext = some e1 ∧
      ratchetTree.marshal G.tree = some e2 ∧
      writeOpaqueVec G.interimTranscriptHash = some e3 ∧
      writeOpaqueVec G.pskSecret = some e4 ∧
      writeOpaqueVec G.epochSecret = some e5 ∧
      writeOpaqueVec G.initSecret = some e6 ∧
      writeVector privTreeEntry.marshal G.privTree = some e8 ∧
      writeOpaqueVec G.signaturePriv = some e9 ∧
      writeVector pendingProposal.marshal G.pendingProposals = some e10 ∧
      bs = e1 ++ e2 ++ e3 ++ e4 ++ e5 ++ e6 ++
        writeUint32 G.myLeafIndex ++ e8 ++ e9 ++ e10 ∧
      ∃ G1, UnmarshalGroupState bs = some G1 ∧
        G1.groupContext = G.groupContext ∧ G1.tree = G.tree ∧
        G1.interimTranscriptHash = G.interimTranscriptHash ∧
        G1.pskSecret = G.pskSecret ∧ G1.epochSecret = G.epochSecret ∧
        G1.initSecret = G.initSecret ∧ G1.myLeafIndex = G.myLeafIndex ∧
        G1.privTree = G.privTree ∧ G1.signaturePriv = G.signaturePriv ∧
        G1.pendingProposals = G.pendingProposals := by
  simp only [Group.WFb, Bool.and_eq_true, decide_eq_true_eq] at hwf
  obtain ⟨⟨⟨hep, hcs⟩, hli⟩, hall⟩ := hwf
  unfold Group.Marshal at h
  have hw := unmarshalGroupStateBytes_write h
  simp only [groupState.marshal, Option.bind_eq_bind, Option.bind_eq_some,
    Option.pure_def, Option.some.injEq] at h
  obtain ⟨gc, hgc, tr, htr, ith, hith, psk, hpsk, es, hes, is0, his0, pt, hpt,
    sp, hsp, pps, hpps, hbs⟩ := h
  refine ⟨gc, tr, ith, psk, es, is0, pt, sp, pps, hgc, htr, hith, hpsk, hes,
    his0, hpt, hsp, hpps, hbs.symm, ?_⟩
  refine ⟨_, UnmarshalGroupState_some hw, ?_, rfl, rfl, rfl, rfl, rfl, ?_,
    rfl, rfl, ?_⟩
  · exact groupContext_norm_of_bounds hep hcs
  · exact Nat.mod_eq_of_lt hli
  · exact map_norm_of_all_wfb hall

/-- C4 witness: the demo group decomposes and restores as stated. -/
theorem persisted_fields_complete_witness :
    ∃ e1 e2 e3 e4 e5 e6 e8 e9 e10,
      groupContext.marshal demoGroup.groupContext = some e1 ∧
      ratchetTree.marshal demoGroup.tree = some e2 ∧
      writeOpaqueVec demoGroup.interimTranscriptHash = some e3 ∧
      writeOpaqueVec demoGroup.pskSecret = some e4 ∧
      writeOpaqueVec demoGroup.epochSecret = some e5 ∧
      writeOpaqueVec demoGroup.initSecret = some e6 ∧
      writeVector privTreeEntry.marshal demoGroup.privTree = some e8 ∧
      writeOpaqueVec demoGroup.signaturePriv = some e9 ∧
      writeVector pendingProposal.marshal demoGroup.pendingProposals = some e10 ∧
      demoBytes = e1 ++ e2 ++ e3 ++ e4 ++ e5 ++ e6 ++
        writeUint32 demoGroup.myLeafIndex ++ e8 ++ e9 ++ e10 ∧
      ∃ G1, UnmarshalGroupState demoBytes = some G1 ∧
        G1.groupContext = demoGroup.groupContext ∧ G1.tree = demoGroup.tree ∧
        G1.interimTranscriptHash = demoGroup.interimTranscriptHash ∧
        G1.pskSecret = demoGroup.pskSecret ∧
        G1.epochSecret = demoGroup.epochSecret ∧
        G1.initSecret = demoGroup.initSecret ∧
        G1.myLeafIndex = demoGroup.myLeafIndex ∧
        G1.privTree = demoGroup.privTree ∧
        G1.signaturePriv = demoGroup.signaturePriv ∧
        G1.pendingProposals = demoGroup.pendingProposals :=
  persisted_fields_complete demoGroup demoBytes (by decide) (by rfl)


theorem encodeAll_eq_mapM_join {α : Type} (enc : α → Option Bytes)
    (xs : List α) {body : Bytes} (h : encodeAll enc xs = some body) :
    ∃ chunks, xs.mapM enc = some chunks ∧ body = chunks.flatten := by
  induction xs generalizing body with
  | nil =>
    obtain rfl := Option.some.inj h
    exact ⟨[], rfl, rfl⟩
  | cons x xs ih =>
    simp only [encodeAll, Option.bind_eq_bind, Option.bind_eq_some,
      Option.pure_def, Option.some.injEq] at h
    obtain ⟨e, he, rest, hrest, rfl⟩ := h
    obtain ⟨chunks, hch, rfl⟩ := ih hrest
    refine ⟨e :: chunks, ?_, by simp⟩
    rw [List.mapM_cons, he, hch]
    rfl

/-- C6: Group.Marshal is a pure, deterministic function of the ten
persisted field values: two Groups with equal field values marshal to
identical bytes; and the sequences with defined wire order, the
private-tree-node column and the pending-proposal list, are written
element-by-element in their existing stored order, their vector bodies
being the in-order concatenation of the per-element encodings. -/
theorem marshal_deterministic_ordered (G1 G2 : Group)
    (hgc : G1.groupContext = G2.groupContext) (htr : G1.tree = G2.tree)
    (hith : G1.interimTranscriptHash = G2.interimTranscriptHash)
    (hpsk : G1.pskSecret = G2.pskSecret)
    (hes : G1.epochSecret = G2.epochSecret)
    (his : G1.initSecret = G2.initSecret)
    (hli : G1.myLeafIndex = G2.myLeafIndex)
    (hpt : G1.privTree = G2.privTree)
    (hsp : G1.signaturePriv = G2.signaturePriv)
    (hpps : G1.pendingProposals = G2.pendingProposals) :
    Group.Marshal G1 = Group.Marshal G2 ∧
    (∀ bs, Group.Marshal G1 = some bs →
      ∃ pre mid ptChunks ppChunks lvPt lvPp,
        G1.privTree.mapM privTreeEntry.marshal = some ptChunks ∧
        G1.pendingProposals.mapM pendingProposal.marshal = some ppChunks ∧
        writeVarint ptChunks.flatten.length = some lvPt ∧
        writeVarint ppChunks.flatten.length = some lvPp ∧
        bs = pre ++ (lvPt ++ ptChunks.flatten) ++ mid ++
          (lvPp ++ ppChunks.flatten)) := by
  constructor
  · unfold Group.Marshal
    rw [hgc, htr, hith, hpsk, hes, his, hli, hpt, hsp, hpps]
  · intro bs h
    unfold Group.Marshal at h
    simp only [groupState.marshal, Option.bind_eq_bind, Option.bind_eq_some,
      Option.pure_def, Option.some.injEq] at h
    obtain ⟨gc, hgc1, tr, htr1, ith, hith1, psk, hpsk1, es, hes1, is0, his1,
      pt, hpt1, sp, hsp1, pps, hpps1, hbs⟩ := h
    simp only [writeVector, Option.bind_eq_bind, Option.bind_eq_some] at hpt1 hpps1
    obtain ⟨body1, hbody1, hov1⟩ := hpt1
    obtain ⟨body2, hbody2, hov2⟩ := hpps1
    simp only [writeOpaqueVec, Option.map_eq_some'] at hov1 hov2
    obtain ⟨lv1, hlv1, rfl⟩ := hov1
    obtain ⟨lv2, hlv2, rfl⟩ := hov2
    obtain ⟨chunks1, hch1, rfl⟩ := encodeAll_eq_mapM_join _ _ hbody1
    obtain ⟨chunks2, hch2, rfl⟩ := encodeAll_eq_mapM_join _ _ hbody2
    refine ⟨gc ++ tr ++ ith ++ psk ++ es ++ is0 ++
      writeUint32 G1.myLeafIndex, sp, chunks1, chunks2, lv1, lv2,
      hch1, hch2, hlv1, hlv2, ?_⟩
    rw [← hbs]

/-- C6 witness: a group differing from the demo group only in the
non-persisted generation counter marshals to the same bytes, and the
demo bytes contain both vectors in stored order. -/
theorem marshal_deterministic_ordered_witness :
    Group.Marshal demoGroup =
      Group.Marshal { demoGroup with appGeneration := 1 } ∧
    ∃ pre mid ptChunks ppChunks lvPt lvPp,
      demoGroup.privTree.mapM privTreeEntry.marshal = some ptChunks ∧
      demoGroup.pendingProposals.mapM pendingProposal.marshal =
        some ppChunks ∧
      writeVarint ptChunks.flatten.length = some lvPt ∧
      writeVarint ppChunks.flatten.length = some lvPp ∧
      demoBytes = pre ++ (lvPt ++ ptChunks.flatten) ++ mid ++
        (lvPp ++ ppChunks.flatten) :=
  ⟨(marshal_deterministic_ordered demoGroup
      { demoGroup with appGeneration := 1 }
      rfl rfl rfl rfl rfl rfl rfl rfl rfl rfl).1,
   (marshal_deterministic_ordered demoGroup demoGroup
      rfl rfl rfl rfl rfl rfl rfl rfl rfl rfl).2 demoBytes (by rfl)⟩


/-- C7: every encoded privTree entry starts with its one-byte presence
flag; an entry is encoded as absent (flag 0 and nothing else) exactly
when the key is nil, and as flag 1 followed by the key bytes otherwise;
decoding a marshaled Group restores the identical column, nil entries
at the same positions with length and indexing preserved. -/
theorem privtree_presence_flags (G : Group) (bs : Bytes)
    (h : Group.Marshal G = some bs) :
    (∀ (entry : Option Bytes) (e : Bytes),
      privTreeEntry.marshal entry = some e →
      (entry = none → e = writeOptional false) ∧
      (∀ key, entry = some key →
        ∃ kv, writeOpaqueVec key = some kv ∧
          e = writeOptional true ++ kv)) ∧
    (∀ G1, UnmarshalGroupState bs = some G1 →
      G1.privTree = G.privTree ∧
      G1.privTree.length = G.privTree.length ∧
      (∀ i, G1.privTree.get? i = G.privTree.get? i)) := by
  constructor
  · intro entry e he
    constructor
    · intro hnone
      subst hnone
      exact (Option.some.inj he).symm
    · intro key hkey
      subst hkey
      simp only [privTreeEntry.marshal, Option.bind_eq_bind,
        Option.bind_eq_some, Option.pure_def, Option.some.injEq] at he
      obtain ⟨kv, hkv, rfl⟩ := he
      exact ⟨kv, hkv, rfl⟩
  · intro G1 hG1
    unfold Group.Marshal at h
    have hw := unmarshalGroupStateBytes_write h
    rw [UnmarshalGroupState_some hw] at hG1
    obtain rfl := (Option.some.inj hG1).symm
    exact ⟨rfl, rfl, fun i => rfl⟩

/-- C7 witness: instantiated at the demo group, whose column holds a
held key, a nil entry and a held empty key. -/
theorem privtree_presence_flags_witness :
    (∀ (entry : Option Bytes) (e : Bytes),
      privTreeEntry.marshal entry = some e →
      (entry = none → e = writeOptional false) ∧
      (∀ key, entry = some key →
        ∃ kv, writeOpaqueVec key = some kv ∧
          e = writeOptional true ++ kv)) ∧
    (∀ G1, UnmarshalGroupState demoBytes = some G1 →
      G1.privTree = demoGroup.privTree ∧
      G1.privTree.length = demoGroup.privTree.length ∧
      (∀ i, G1.privTree.get? i = demoGroup.privTree.get? i)) :=
  privtree_presence_flags demoGroup demoBytes (by rfl)

/-- C8: counters and indices are fixed-width 32-bit values: the own
LeafIndex is written as exactly one unsigned 32-bit value at its place
in the encoding, each pending proposal's sender leaf index is the last
four bytes of its encoding, and reading either back returns the value
reduced to 32 bits. -/
theorem fixed_width_indices (G : Group) (bs : Bytes)
    (h : Group.Marshal G = some bs) :
    ((writeUint32 G.myLeafIndex).length = 4 ∧
     (∀ r, readUint32 (writeUint32 G.myLeafIndex ++ r) =
        some (G.myLeafIndex % 2^32, r)) ∧
     ∃ pre post, bs = pre ++ writeUint32 G.myLeafIndex ++ post) ∧
    (∀ pp e, pendingProposal.marshal pp = some e →
      (writeUint32 pp.sender).length = 4 ∧
      ∃ pre, e = pre ++ writeUint32 pp.sender ∧
        ∀ r, readUint32 (writeUint32 pp.sender ++ r) =
          some (pp.sender % 2^32, r)) := by
  constructor
  · refine ⟨rfl, fun r => readUint32_write G.myLeafIndex r, ?_⟩
    unfold Group.Marshal at h
    simp only [groupState.marshal, Option.bind_eq_bind, Option.bind_eq_some,
      Option.pure_def, Option.some.injEq] at h
    obtain ⟨gc, hgc1, tr, htr1, ith, hith1, psk, hpsk1, es, hes1, is0, his1,
      pt, hpt1, sp, hsp1, pps, hpps1, hbs⟩ := h
    refine ⟨gc ++ tr ++ ith ++ psk ++ es ++ is0, pt ++ sp ++ pps, ?_⟩
    rw [← hbs]
    simp [List.append_assoc]
  · intro pp e he
    refine ⟨rfl, ?_⟩
    simp only [pendingProposal.marshal, Option.bind_eq_bind,
      Option.bind_eq_some, Option.pure_def, Option.some.injEq] at he
    obtain ⟨r0, hr0, p0, hp0, rfl⟩ := he
    refine ⟨r0 ++ p0, ?_, fun r => readUint32_write pp.sender r⟩
    simp [List.append_assoc]

/-- C8 witness: instantiated at the demo group and its bytes. -/
theorem fixed_width_indices_witness :
    ((writeUint32 demoGroup.myLeafIndex).length = 4 ∧
     (∀ r, readUint32 (writeUint32 demoGroup.myLeafIndex ++ r) =
        some (demoGroup.myLeafIndex % 2^32, r)) ∧
     ∃ pre post, demoBytes = pre ++ writeUint32 demoGroup.myLeafIndex ++ post) ∧
    (∀ pp e, pendingProposal.marshal pp = some e →
      (writeUint32 pp.sender).length = 4 ∧
      ∃ pre, e = pre ++ writeUint32 pp.sender ∧
        ∀ r, readUint32 (writeUint32 pp.sender ++ r) =
          some (pp.sender % 2^32, r)) :=
  fixed_width_indices demoGroup demoBytes (by rfl)


/-- C9: a newly created group has zero pending proposals, and a Group
whose pending-proposal list is empty still has zero pending proposals
after a marshal/unmarshal persistence round-trip. -/
theorem new_group_no_pending :
    (∀ gid kpp, (CreateGroup gid kpp).pendingProposals = []) ∧
    (∀ (G : Group) (bs : Bytes) (G1 : Group), G.pendingProposals = [] →
      Group.Marshal G = some bs → UnmarshalGroupState bs = some G1 →
      G1.pendingProposals = []) := by
  constructor
  · intro gid kpp
    rfl
  · intro G bs G1 hemp h hG1
    unfold Group.Marshal at h
    have hw := unmarshalGroupStateBytes_write h
    rw [UnmarshalGroupState_some hw] at hG1
    obtain rfl := (Option.some.inj hG1).symm
    show List.map pendingProposal.norm G.pendingProposals = []
    rw [hemp]
    rfl

/-- C9 witness: the scenario group starts with no pending proposals and
the restored empty-proposal demo group still has none. -/
theorem new_group_no_pending_witness :
    (CreateGroup testGroupID aliceKPP).pendingProposals = [] ∧
    demoEmptyRestored.pendingProposals = [] :=
  ⟨new_group_no_pending.1 testGroupID aliceKPP,
   new_group_no_pending.2 demoGroupEmpty demoEmptyBytes demoEmptyRestored
     (by decide) (by rfl) (by decide)⟩

/-- C10: Group.Marshal leaves the Group unchanged: in the
state-passing embedding of the method, the receiver comes back with
every field equal to its value before the call, and the produced bytes
are exactly those of the pure Marshal function. -/
theorem marshal_preserves_group (G : Group) :
    (Group.MarshalSt G).2.groupContext = G.groupContext ∧
    (Group.MarshalSt G).2.tree = G.tree ∧
    (Group.MarshalSt G).2.interimTranscriptHash = G.interimTranscriptHash ∧
    (Group.MarshalSt G).2.pskSecret = G.pskSecret ∧
    (Group.MarshalSt G).2.epochSecret = G.epochSecret ∧
    (Group.MarshalSt G).2.initSecret = G.initSecret ∧
    (Group.MarshalSt G).2.myLeafIndex = G.myLeafIndex ∧
    (Group.MarshalSt G).2.privTree = G.privTree ∧
    (Group.MarshalSt G).2.signaturePriv = G.signaturePriv ∧
    (Group.MarshalSt G).2.pendingProposals = G.pendingProposals ∧
    (Group.MarshalSt G).2 = G ∧
    (Group.MarshalSt G).1 = Group.Marshal G :=
  ⟨rfl, rfl, rfl, rfl, rfl, rfl, rfl, rfl, rfl, rfl, rfl, rfl⟩

/-- C5: in the group created as test-group with credential alice,
after encrypting hello world, marshaling the group and unmarshaling it,
the restored group decrypts the original ciphertext back to exactly
hello world. -/
theorem scenario_hello_roundtrip :
    Group.Marshal aliceGroup1 = some aliceMarshaled ∧
    (UnmarshalGroupState aliceMarshaled).bind
      (fun g => g.UnmarshalAndProcessMessage helloCiphertext) =
      some helloWorld := by
  constructor
  · rfl
  · decide

end MLS
